import Mathlib

/-!
Verification of the fork analysis and categorization engine of
cmd/gh-wtfork/main.go (repository jdevera/git-this-bread).

The Go program is shallowly embedded: pure computations become Lean
functions; each remote call made by the per-fork analyzer becomes an
explicit `Except Unit` input collected in a `GhEnv` record; the per-upstream
cache file becomes an explicit `CacheRead` value describing what the file
system returned (absent file, unreadable file, or file content, the latter
possibly malformed); the current wall-clock time consumed by `savePRCache`
becomes an explicit `now : Nat` argument, and the time-dependent
`relativeTime` helper becomes a function argument `relTime`.

Go maps (`map[int]CachedPR`, `map[string]*PR`) are embedded as association
lists with Go's assignment semantics (replace the binding in place if the
key is present, append otherwise); lookups return the first binding.
-/

namespace GhWtfork

/-- PR state constants (main.go lines 56-60). -/
def PRStateOpen : String := "OPEN"

def PRStateMerged : String := "MERGED"

def PRStateClosed : String := "CLOSED"

/-- Fork category constants (main.go lines 63-67). -/
def CategoryMaintained : String := "maintained"

def CategoryContribution : String := "contribution"

def CategoryUntouched : String := "untouched"

/-- The `PR` struct (main.go lines 95-100). -/
structure PR where
  number : Int
  title : String
  state : String
  url : String
deriving Repr, DecidableEq

/-- The `Branch` struct (main.go lines 87-93). -/
structure Branch where
  name : String
  date : String
  dateAgo : String
  isDefault : Bool
  pr : Option PR
deriving Repr, DecidableEq

/-- The `Fork` struct (main.go lines 69-85). -/
structure Fork where
  name : String
  fullName : String
  url : String
  parentName : String
  parentFullName : String
  defaultBranch : String
  category : String
  ahead : Int
  behind : Int
  forkLastCommit : String
  forkLastAgo : String
  upstreamLast : String
  upstreamAgo : String
  branches : List Branch
  untouched : Bool
deriving Repr, DecidableEq

/-- The zero value of `Fork`, as produced by the Go composite literal in
`analyzeForkWithProgress` before fields are assigned. -/
def defaultFork : Fork :=
  { name := "", fullName := "", url := "", parentName := "", parentFullName := ""
  , defaultBranch := "", category := "", ahead := 0, behind := 0
  , forkLastCommit := "", forkLastAgo := "", upstreamLast := "", upstreamAgo := ""
  , branches := [], untouched := false }

/-- The parent part of the `ghRepo` struct (main.go lines 560-566). -/
structure ghParent where
  name : String
  fullName : String
  defaultBranch : String
deriving Repr, DecidableEq

/-- The `ghRepo` struct (main.go lines 552-567). -/
structure ghRepo where
  name : String
  fullName : String
  url : String
  isFork : Bool
  defaultBranch : String
  parent : Option ghParent
deriving Repr, DecidableEq

/-- The `ghPR` struct (main.go lines 774-782); `headRef` is `Head.Ref`. -/
structure ghPR where
  number : Int
  title : String
  state : String
  url : String
  headRef : String
deriving Repr, DecidableEq

/-- The `CachedPR` struct (main.go lines 924-930). -/
structure CachedPR where
  number : Int
  title : String
  state : String
  url : String
  branch : String
deriving Repr, DecidableEq

/-- Association list with Go map semantics; lookup returns the first
binding for the key. -/
def lookupA {κ α : Type} [DecidableEq κ] : List (κ × α) → κ → Option α
  | [], _ => none
  | (k, v) :: rest, k2 => if k = k2 then some v else lookupA rest k2

/-- Go map assignment `m[k] = v`: replace the binding in place if present,
append otherwise. -/
def insertA {κ α : Type} [DecidableEq κ] : List (κ × α) → κ → α → List (κ × α)
  | [], k, v => [(k, v)]
  | (k2, v2) :: rest, k, v => if k2 = k then (k, v) :: rest else (k2, v2) :: insertA rest k v

/-- The `PRCache` struct (main.go lines 933-936): PRs keyed by PR number
plus a last-updated timestamp (modelled as a `Nat`). -/
structure PRCache where
  prs : List (Int × CachedPR)
  updatedAt : Nat
deriving Repr, DecidableEq

/-- The JSON document persisted for a `PRCache`.  `prs` is `Option`-valued
because the JSON may carry a null `prs` field (Go then unmarshals a nil
map, which `loadPRCache` replaces with an empty one). -/
structure PRCacheFile where
  prs : Option (List (Int × CachedPR))
  updatedAt : Nat
deriving Repr, DecidableEq

/-- What the file system and JSON decoder produced for one cache read:
the file is absent (`os.IsNotExist`), the read failed for another reason
(permission error, or `getCacheDir` failing), or the file was read and
either failed to unmarshal (`found none`) or parsed to a document. -/
inductive CacheRead where
  | missing
  | failed
  | found (doc : Option PRCacheFile)
deriving Repr, DecidableEq

/-- The empty cache `&PRCache{PRs: make(map[int]CachedPR)}`. -/
def emptyPRCache : PRCache := { prs := [], updatedAt := 0 }

/-- `loadPRCache` (main.go lines 958-984): a missing file and a malformed
file both yield an empty cache with no error; any other read failure is
returned as an error; a parsed document has a nil PR map replaced by an
empty one. -/
def loadPRCache : CacheRead → Except Unit PRCache
  | .missing => .ok emptyPRCache
  | .failed => .error ()
  | .found none => .ok emptyPRCache
  | .found (some doc) => .ok { prs := doc.prs.getD [], updatedAt := doc.updatedAt }

/-- The `CachedPR` built from a `ghPR` in the save loop (main.go 1004-1010). -/
def cachedOfPR (pr : ghPR) : CachedPR :=
  { number := pr.number, title := pr.title, state := pr.state, url := pr.url
  , branch := pr.headRef }

/-- One iteration of the save loop (main.go lines 1002-1012): merged and
closed PRs are upserted into the cache map, others are skipped. -/
def upsertTerminal (acc : List (Int × CachedPR)) (pr : ghPR) : List (Int × CachedPR) :=
  if pr.state = PRStateMerged ∨ pr.state = PRStateClosed then
    insertA acc pr.number (cachedOfPR pr)
  else acc

/-- `savePRCache` (main.go lines 987-1023): reload the on-disk state
(ignoring the load error; a failed load leaves a nil cache whose use
panics, modelled as `none`), overlay the terminal-state PRs onto it,
stamp the current time, and write the document back. -/
def savePRCache (r : CacheRead) (prs : List ghPR) (now : Nat) : Option PRCacheFile :=
  match loadPRCache r with
  | .error _ => none
  | .ok cache => some { prs := some (prs.foldl upsertTerminal cache.prs), updatedAt := now }

/-- The `ghPR` rebuilt from a cache entry (main.go lines 1038-1046). -/
def ghPRofCached (cpr : CachedPR) : ghPR :=
  { number := cpr.number, title := cpr.title, state := cpr.state, url := cpr.url
  , headRef := cpr.branch }

/-- `mergeCachedPRs` (main.go lines 1027-1051): keep every fresh PR, then
append each cached PR whose number is absent from the fresh set. -/
def mergeCachedPRs (fresh : List ghPR) (cache : PRCache) : List ghPR :=
  let seen := fresh.map (fun pr => pr.number)
  fresh ++ cache.prs.filterMap (fun kv =>
    if kv.2.number ∈ seen then none else some (ghPRofCached kv.2))

/-- The cache view held by `getPRsForFork` (main.go lines 784-791): with
`--no-cache` a fresh empty cache; otherwise the result of `loadPRCache`
with the error discarded, which leaves a nil cache (`none`) when the load
failed. -/
def forkCacheView (noCacheFlag : Bool) (r : CacheRead) : Option PRCache :=
  if noCacheFlag then some emptyPRCache
  else
    match loadPRCache r with
    | .ok c => some c
    | .error _ => none

/-- The merge-and-persist step of `getPRsForFork` (main.go lines 868-872)
for a successful live fetch with caching enabled: merge the cached PRs into
the live list, then `savePRCache` the merged list (which itself reloads the
same on-disk state).  `none` models the nil-cache panic after a failed
load. -/
def mergeAndPersist (r : CacheRead) (live : List ghPR) (now : Nat) : Option PRCacheFile :=
  match loadPRCache r with
  | .error _ => none
  | .ok cache => savePRCache r (mergeCachedPRs live cache) now

/-- The `PR` record built from a `ghPR` in `linkPRsToBranches`
(main.go lines 888-901). -/
def prOfGh (pr : ghPR) : PR :=
  { number := pr.number, title := pr.title, state := pr.state, url := pr.url }

/-- One iteration of the branch-map loop of `linkPRsToBranches`
(main.go lines 881-903): the first PR seen for a branch is stored; a later
PR replaces it only when it is OPEN, or MERGED while the stored one is
CLOSED. -/
def updateBranchPRs (m : List (String × PR)) (pr : ghPR) : List (String × PR) :=
  match lookupA m pr.headRef with
  | none => insertA m pr.headRef (prOfGh pr)
  | some existing =>
    if pr.state = PRStateOpen ∨ (pr.state = PRStateMerged ∧ existing.state = PRStateClosed) then
      insertA m pr.headRef (prOfGh pr)
    else m

/-- The branch-name-to-PR map of `linkPRsToBranches` (main.go 879-903). -/
def buildBranchPRs (prs : List ghPR) : List (String × PR) :=
  prs.foldl updateBranchPRs []

/-- `linkPRsToBranches` (main.go lines 877-911): attach to each branch the
PR selected for its name, if any. -/
def linkPRsToBranches (f : Fork) (prs : List ghPR) : Fork :=
  let m := buildBranchPRs prs
  { f with branches := f.branches.map (fun b =>
      match lookupA m b.name with
      | some pr => { b with pr := some pr }
      | none => b) }

/-- `formatDate` (main.go lines 913-918). -/
def formatDate (isoDate : String) : String :=
  if isoDate.length ≥ 10 then isoDate.take 10 else isoDate

/-- The `comparison` struct (main.go lines 691-694). -/
structure Comparison where
  aheadBy : Int
  behindBy : Int
deriving Repr, DecidableEq

/-- The remote responses one fork's analysis consumes, one `Except` per
remote call made by `analyzeForkWithProgress`; `prs` is the output of
`getPRsForFork` (live search already merged with the cache). -/
structure GhEnv where
  comparison : Except Unit Comparison
  forkLastDate : Except Unit String
  upstreamLastDate : Except Unit String
  branches : Except Unit (List Branch)
  prs : Except Unit (List ghPR)

/-- `strings.Split(s, "/")[0]`: the prefix of `s` before its first `/`
(the whole string when there is none); Go's `Split` always returns at
least one element, and element 0 is exactly this prefix. -/
def goSplitOwner (s : String) : String :=
  { data := s.data.takeWhile (fun c => c ≠ Char.ofNat 47) }

/-- The compare request built by `getComparison` (main.go lines 696-701):
`repos/<baseRepo>/compare/<baseOwner>:<baseBranch>...<headOwner>:<headBranch>`. -/
structure CompareRequest where
  baseRepo : String
  baseOwner : String
  baseBranch : String
  headOwner : String
  headBranch : String
deriving Repr, DecidableEq

/-- The endpoint string `getComparison` formats from its arguments. -/
def compareEndpoint (r : CompareRequest) : String :=
  "repos/" ++ r.baseRepo ++ "/compare/" ++ r.baseOwner ++ ":" ++ r.baseBranch ++
    "..." ++ r.headOwner ++ ":" ++ r.headBranch

/-- `getComparison`'s request construction (main.go lines 697-701): the
single `branch` argument is used for both sides of the comparison. -/
def getComparisonRequest (forkFullName parentFullName branch : String) : CompareRequest :=
  { baseRepo := parentFullName
  , baseOwner := goSplitOwner parentFullName
  , baseBranch := branch
  , headOwner := goSplitOwner forkFullName
  , headBranch := branch }

/-- The comparison request issued for one fork by
`analyzeForkWithProgress` (main.go line 627): `getComparison` is called
with the fork's full name, the parent's full name, and the fork's default
branch name; no request is made when there is no parent. -/
def analyzeComparisonRequest (repo : ghRepo) : Option CompareRequest :=
  repo.parent.map (fun p => getComparisonRequest repo.fullName p.fullName repo.defaultBranch)

/-- The enrichment phase of `analyzeForkWithProgress` (main.go lines
612-659): build the fork record, then apply each remote result in order,
leaving fields at their zero values when a call failed. -/
def enrichFork (g : GhEnv) (relTime : String → String) (repo : ghRepo) : Fork :=
  let f : Fork := { defaultFork with
    name := repo.name, fullName := repo.fullName, url := repo.url
    , defaultBranch := repo.defaultBranch }
  let f := match repo.parent with
    | some p => { f with parentName := p.name, parentFullName := p.fullName }
    | none => f
  let f := match repo.parent with
    | some _ =>
      let f := match g.comparison with
        | .ok c => { f with ahead := c.aheadBy, behind := c.behindBy }
        | .error _ => f
      let f := match g.forkLastDate with
        | .ok d => { f with forkLastCommit := formatDate d, forkLastAgo := relTime d }
        | .error _ => f
      match g.upstreamLastDate with
        | .ok d => { f with upstreamLast := formatDate d, upstreamAgo := relTime d }
        | .error _ => f
    | none => f
  let f := match g.branches with
    | .ok bs => { f with branches := bs }
    | .error _ => f
  match repo.parent, g.prs with
  | some _, .ok prs => linkPRsToBranches f prs
  | _, _ => f

/-- The categorization loop of `analyzeForkWithProgress` (main.go lines
662-672): count non-default branches and detect an OPEN linked PR. -/
def branchStats (bs : List Branch) : Nat × Bool :=
  bs.foldl (fun st b =>
    ( if !b.isDefault then st.1 + 1 else st.1
    , st.2 || (match b.pr with
        | some p => p.state == PRStateOpen
        | none => false) ))
    (0, false)

/-- The category switch of `analyzeForkWithProgress` (main.go lines
678-687). -/
def categorizeFork (f : Fork) : Fork :=
  let st := branchStats f.branches
  let cat :=
    if f.ahead > 0 then CategoryMaintained
    else if 0 < st.1 ∨ st.2 = true then CategoryContribution
    else CategoryUntouched
  { f with category := cat, untouched := cat == CategoryUntouched }

/-- `analyzeForkWithProgress` (main.go lines 611-689): enrich then
categorize; the function always returns a nil error (its error return is
kept only for future use). -/
def analyzeFork (g : GhEnv) (relTime : String → String) (repo : ghRepo) :
    Fork × Option Unit :=
  (categorizeFork (enrichFork g relTime repo), none)

/-- The worker-pool phase of `run` (main.go lines 229-243): each worker
writes the analysis of the fork at its own index (with that fork's remote
responses) into the result and error slots at that index, so the collected
slots are the index-wise image of the input list regardless of
scheduling. -/
def analyzeJobs (relTime : String → String) (jobs : List (ghRepo × GhEnv)) :
    List (ghRepo × Fork × Option Unit) :=
  jobs.map (fun j => (j.1, (analyzeFork j.2 relTime j.1).1, (analyzeFork j.2 relTime j.1).2))

/-- The collection loop of `run` (main.go lines 248-258): an index with a
recorded error contributes a warning naming the input fork; otherwise the
analyzed fork is kept when its full name is non-empty. -/
def collectResults : List (ghRepo × Fork × Option Unit) → List Fork × List String
  | [] => ([], [])
  | (repo, f, e) :: rest =>
    let c := collectResults rest
    match e with
    | some _ => (c.1, repo.fullName :: c.2)
    | none => if f.fullName ≠ "" then (f :: c.1, c.2) else c

/-- The untouched filter of `run` (main.go lines 266-274). -/
def filterUntouched (showAll : Bool) (results : List Fork) : List Fork :=
  if showAll then results else results.filter (fun f => !f.untouched)

/-- The `categoryOrder` map of `run` (main.go lines 277-281); a Go map
lookup on an absent key yields the zero value 0. -/
def categoryOrder (c : String) : Nat :=
  if c = CategoryMaintained then 0
  else if c = CategoryContribution then 1
  else if c = CategoryUntouched then 2
  else 0

/-- Go's `<` on strings (byte-wise lexicographic, which on UTF-8 data is
the same order as character-wise lexicographic). -/
def goStringLt (a b : String) : Bool := decide (a.data < b.data)

/-- The `sort.Slice` comparator of `run` (main.go lines 282-287). -/
def forkLess (a b : Fork) : Bool :=
  if a.category ≠ b.category then
    decide (categoryOrder a.category < categoryOrder b.category)
  else goStringLt a.name b.name

/-- `a` may precede `b` in the sorted output: the comparator does not
order `b` strictly before `a`. -/
def forkLe (a b : Fork) : Bool := !(forkLess b a)

def insertFork (x : Fork) : List Fork → List Fork
  | [] => [x]
  | y :: rest => if forkLe x y then x :: y :: rest else y :: insertFork x rest

/-- The final sort of `run` (main.go lines 282-287).  `sort.Slice` is an
unspecified (unstable) comparison sort whose observable contract is a
permutation of the input that is pairwise ordered by the comparator; it is
modelled as an insertion sort with the same comparator, which satisfies
exactly that contract. -/
def sortForks : List Fork → List Fork
  | [] => []
  | x :: rest => insertFork x (sortForks rest)

/-! ### Claim-side definitions

These restate, in the spec's words, the quantities the claims compare the
code against. -/

/-- Count of non-default branches of a fork (spec section 3, invariant a). -/
def countNonDefault (bs : List Branch) : Nat :=
  (bs.filter (fun b => !b.isDefault)).length

/-- Presence of an OPEN-state linked PR on some branch (spec section 3,
invariant a). -/
def hasOpenLinkedPR (bs : List Branch) : Bool :=
  bs.any (fun b =>
    match b.pr with
    | some p => p.state == PRStateOpen
    | none => false)

/-- Modelled from the spec: the category mapping of spec section 4.3 step 6,
`ahead > 0 → maintained; else nonDefault > 0 or open PR → contribution;
else untouched`, as a pure function of the triple. -/
def categorySpec (ahead : Int) (nonDefault : Nat) (hasOpen : Bool) : String :=
  if ahead > 0 then CategoryMaintained
  else if 0 < nonDefault ∨ hasOpen = true then CategoryContribution
  else CategoryUntouched

/-- PR-state priority of spec section 4.3 step 5: OPEN > MERGED > CLOSED. -/
def statePriority (s : String) : Nat :=
  if s = PRStateOpen then 2 else if s = PRStateMerged then 1 else 0

/-! ### Helper lemmas -/

theorem lookupA_insertA {κ α : Type} [DecidableEq κ] (m : List (κ × α)) (k k2 : κ) (v : α) :
    lookupA (insertA m k v) k2 = if k = k2 then some v else lookupA m k2 := by
  induction m with
  | nil => simp [insertA, lookupA]
  | cons hd tl ih =>
    obtain ⟨k3, v3⟩ := hd
    by_cases h3 : k3 = k
    · subst h3
      by_cases h4 : k3 = k2 <;> simp [insertA, lookupA, h4]
    · simp only [insertA, if_neg h3, lookupA]
      by_cases h4 : k3 = k2
      · subst h4
        have : ¬ k = k3 := fun h => h3 h.symm
        simp [lookupA, this]
      · simp [lookupA, h4, ih]

theorem mem_insertA {κ α : Type} [DecidableEq κ] (m : List (κ × α)) (k : κ) (v : α)
    (x : κ × α) (hx : x ∈ insertA m k v) : x = (k, v) ∨ x ∈ m := by
  induction m with
  | nil => simpa [insertA] using hx
  | cons hd tl ih =>
    obtain ⟨k3, v3⟩ := hd
    by_cases h3 : k3 = k
    · subst h3
      rcases (by simpa [insertA] using hx : x = (k3, v) ∨ x ∈ tl) with h | h
      · exact Or.inl (by simpa using h)
      · exact Or.inr (List.mem_cons_of_mem _ h)
    · rcases (by simpa [insertA, h3] using hx : x = (k3, v3) ∨ x ∈ insertA tl k v) with h | h
      · exact Or.inr (by simp [h])
      · rcases ih h with h | h
        · exact Or.inl h
        · exact Or.inr (List.mem_cons_of_mem _ h)

theorem branchStats_go (bs : List Branch) (n : Nat) (b : Bool) :
    bs.foldl (fun st bb =>
      ( if !bb.isDefault then st.1 + 1 else st.1
      , st.2 || (match bb.pr with
          | some p => p.state == PRStateOpen
          | none => false) )) (n, b)
      = (n + countNonDefault bs, b || hasOpenLinkedPR bs) := by
  induction bs generalizing n b with
  | nil => simp [countNonDefault, hasOpenLinkedPR]
  | cons hd tl ih =>
    simp only [List.foldl_cons, ih, countNonDefault, hasOpenLinkedPR, List.filter_cons,
      List.any_cons]
    by_cases hd1 : hd.isDefault
    · simp [hd1, Bool.or_assoc]
    · simp only [hd1, Bool.not_false, if_true, Bool.false_eq_true, List.length_cons,
        Prod.mk.injEq]
      exact ⟨by omega, by simp [Bool.or_assoc]⟩

theorem branchStats_eq (bs : List Branch) :
    branchStats bs = (countNonDefault bs, hasOpenLinkedPR bs) := by
  simpa [branchStats] using branchStats_go bs 0 false

/-! ### Claims -/

/-- C1: for every analyzed fork, the assigned category is a pure function
of (ahead, count of non-default branches, presence of an OPEN-state linked
PR): exactly `maintained` when ahead > 0; else `contribution` when the
non-default branch count is positive or some linked PR is OPEN; else
`untouched`; no other outcome is possible. -/
theorem category_pure_function (g : GhEnv) (rt : String → String) (repo : ghRepo) :
    ((analyzeFork g rt repo).1).category
      = categorySpec ((analyzeFork g rt repo).1).ahead
          (countNonDefault ((analyzeFork g rt repo).1).branches)
          (hasOpenLinkedPR ((analyzeFork g rt repo).1).branches)
    ∧ (((analyzeFork g rt repo).1).category = CategoryMaintained
       ∨ ((analyzeFork g rt repo).1).category = CategoryContribution
       ∨ ((analyzeFork g rt repo).1).category = CategoryUntouched) := by
  simp only [analyzeFork, categorizeFork, branchStats_eq, categorySpec]
  refine ⟨trivial, ?_⟩
  split
  · exact Or.inl rfl
  · split
    · exact Or.inr (Or.inl rfl)
    · exact Or.inr (Or.inr rfl)

/-- C10: the per-fork analysis function always returns a nil error, so no
fork index ever records a per-fork-fatal error and the warning path for
analysis errors is unreachable: the warning list of the collection phase
fed by the analyzer is always empty. -/
theorem analyzeFork_never_errors :
    (∀ (g : GhEnv) (rt : String → String) (repo : ghRepo),
        (analyzeFork g rt repo).2 = none)
    ∧ (∀ (rt : String → String) (jobs : List (ghRepo × GhEnv)),
        (collectResults (analyzeJobs rt jobs)).2 = []) := by
  refine ⟨fun g rt repo => rfl, fun rt jobs => ?_⟩
  induction jobs with
  | nil => rfl
  | cons j rest ih =>
    simp only [analyzeJobs, List.map_cons, collectResults, analyzeFork]
    simp only [analyzeJobs] at ih
    split
    · simpa using ih
    · simpa using ih

/-- C2: merging cached PRs into the live set keeps the live entries for
every PR number present in both (the live list is kept verbatim, so live
data takes precedence), and appends a cached PR (with its stored branch
name) exactly when its number is absent from the live set. -/
theorem merge_live_precedence (fresh : List ghPR) (cache : PRCache) :
    (∀ n, n ∈ fresh.map (fun pr => pr.number) →
      (mergeCachedPRs fresh cache).filter (fun pr => pr.number == n)
        = fresh.filter (fun pr => pr.number == n))
    ∧ (∀ kv, kv ∈ cache.prs → kv.2.number ∉ fresh.map (fun pr => pr.number) →
        ghPRofCached kv.2 ∈ mergeCachedPRs fresh cache)
    ∧ (∀ pr, pr ∈ fresh → pr ∈ mergeCachedPRs fresh cache)
    ∧ (∀ pr, pr ∈ mergeCachedPRs fresh cache →
        pr ∈ fresh ∨ ∃ kv, kv ∈ cache.prs ∧ pr = ghPRofCached kv.2
          ∧ kv.2.number ∉ fresh.map (fun pr2 => pr2.number)) := by
  refine ⟨?_, ?_, ?_, ?_⟩
  · intro n hn
    simp only [mergeCachedPRs, List.filter_append]
    have hnil : (cache.prs.filterMap (fun kv =>
        if kv.2.number ∈ fresh.map (fun pr => pr.number) then none
        else some (ghPRofCached kv.2))).filter (fun pr => pr.number == n) = [] := by
      rw [List.filter_eq_nil_iff]
      intro a ha
      rcases List.mem_filterMap.mp ha with ⟨kv, _, hkv⟩
      by_cases hmem : kv.2.number ∈ fresh.map (fun pr => pr.number)
      · simp [hmem] at hkv
      · simp only [hmem, if_false, Option.some.injEq] at hkv
        subst hkv
        simp only [ghPRofCached, beq_iff_eq]
        intro h
        exact hmem (h ▸ hn)
    rw [hnil, List.append_nil]
  · intro kv hkv hnot
    simp only [mergeCachedPRs]
    refine List.mem_append_right _ (List.mem_filterMap.mpr ⟨kv, hkv, ?_⟩)
    simp [hnot]
  · intro pr hpr
    exact List.mem_append_left _ hpr
  · intro pr hpr
    rcases List.mem_append.mp hpr with h | h
    · exact Or.inl h
    · rcases List.mem_filterMap.mp h with ⟨kv, hkv, hf⟩
      by_cases hmem : kv.2.number ∈ fresh.map (fun pr2 => pr2.number)
      · simp [hmem] at hf
      · simp only [hmem, if_false, Option.some.injEq] at hf
        exact Or.inr ⟨kv, hkv, hf.symm, hmem⟩

/-- C2 witness: the spec's gap-filling example; the cache holds PR 7
(MERGED, branch old-fix), the live search misses it, and the merge result
contains PR 7 with its stored branch name. -/
theorem merge_live_precedence_witness :
    ghPRofCached ⟨7, "t7", "MERGED", "u7", "old-fix"⟩
      ∈ mergeCachedPRs [⟨5, "t5", "OPEN", "u5", "feat"⟩]
          ⟨[(7, ⟨7, "t7", "MERGED", "u7", "old-fix"⟩)], 0⟩ :=
  (merge_live_precedence [⟨5, "t5", "OPEN", "u5", "feat"⟩]
      ⟨[(7, ⟨7, "t7", "MERGED", "u7", "old-fix"⟩)], 0⟩).2.1
    (7, ⟨7, "t7", "MERGED", "u7", "old-fix"⟩) (by decide) (by decide)

/-- The element of `prs` whose terminal-state upsert wins for key `k`:
the last PR in `prs` that is MERGED or CLOSED and has number `k`. -/
def lastTerminalFor (k : Int) (prs : List ghPR) : Option ghPR :=
  prs.foldl (fun a pr =>
    if (pr.state = PRStateMerged ∨ pr.state = PRStateClosed) ∧ pr.number = k then some pr
    else a) none

theorem lastTerminal_append (k : Int) (prs : List ghPR) (pr : ghPR) :
    lastTerminalFor k (prs ++ [pr])
      = if (pr.state = PRStateMerged ∨ pr.state = PRStateClosed) ∧ pr.number = k then some pr
        else lastTerminalFor k prs := by
  simp [lastTerminalFor, List.foldl_append]

theorem lastTerminal_mem (k : Int) (prs : List ghPR) :
    ∀ pr, lastTerminalFor k prs = some pr →
      pr ∈ prs ∧ (pr.state = PRStateMerged ∨ pr.state = PRStateClosed) ∧ pr.number = k := by
  induction prs using List.reverseRecOn with
  | nil => intro pr h; simp [lastTerminalFor] at h
  | append_singleton rest q ih =>
    intro pr h
    rw [lastTerminal_append] at h
    by_cases hc : (q.state = PRStateMerged ∨ q.state = PRStateClosed) ∧ q.number = k
    · rw [if_pos hc] at h
      obtain rfl : q = pr := by simpa using h
      exact ⟨List.mem_append_right _ (List.mem_singleton_self _), hc.1, hc.2⟩
    · rw [if_neg hc] at h
      have := ih pr h
      exact ⟨List.mem_append_left _ this.1, this.2⟩

theorem lastTerminal_isSome (prs : List ghPR) (pr : ghPR) (hmem : pr ∈ prs)
    (hterm : pr.state = PRStateMerged ∨ pr.state = PRStateClosed) :
    (lastTerminalFor pr.number prs).isSome = true := by
  induction prs using List.reverseRecOn with
  | nil => simp at hmem
  | append_singleton rest q ih =>
    rw [lastTerminal_append]
    by_cases hc : (q.state = PRStateMerged ∨ q.state = PRStateClosed) ∧ q.number = pr.number
    · simp [hc]
    · rw [if_neg hc]
      rcases List.mem_append.mp hmem with h2 | h2
      · exact ih h2
      · obtain rfl : pr = q := by simpa using h2
        exact absurd ⟨hterm, rfl⟩ hc

theorem lookupA_foldl_upsert (prs : List ghPR) (m : List (Int × CachedPR)) (k : Int) :
    lookupA (prs.foldl upsertTerminal m) k
      = match lastTerminalFor k prs with
        | some pr => some (cachedOfPR pr)
        | none => lookupA m k := by
  induction prs using List.reverseRecOn with
  | nil => simp [lastTerminalFor]
  | append_singleton rest pr ih =>
    rw [List.foldl_append, lastTerminal_append]
    simp only [List.foldl_cons, List.foldl_nil]
    by_cases hterm : pr.state = PRStateMerged ∨ pr.state = PRStateClosed
    · by_cases hk : pr.number = k
      · rw [if_pos ⟨hterm, hk⟩]
        simp [upsertTerminal, if_pos hterm, lookupA_insertA, hk]
      · rw [if_neg (fun hc => hk hc.2)]
        simp only [upsertTerminal, if_pos hterm, lookupA_insertA, if_neg hk]
        exact ih
    · rw [if_neg (fun hc => hterm hc.1)]
      simp only [upsertTerminal, if_neg hterm]
      exact ih

theorem mem_foldl_upsert (prs : List ghPR) (m : List (Int × CachedPR)) :
    ∀ kv, kv ∈ prs.foldl upsertTerminal m →
      kv ∈ m ∨ ∃ pr, pr ∈ prs ∧ kv = (pr.number, cachedOfPR pr) := by
  induction prs using List.reverseRecOn with
  | nil => exact fun kv h => Or.inl h
  | append_singleton rest pr ih =>
    intro kv h
    rw [List.foldl_append] at h
    simp only [List.foldl_cons, List.foldl_nil] at h
    by_cases hterm : pr.state = PRStateMerged ∨ pr.state = PRStateClosed
    · simp only [upsertTerminal, if_pos hterm] at h
      rcases mem_insertA _ _ _ _ h with h2 | h2
      · exact Or.inr ⟨pr, List.mem_append_right _ (List.mem_singleton_self _), h2⟩
      · rcases ih kv h2 with h3 | ⟨q, hq, rfl⟩
        · exact Or.inl h3
        · exact Or.inr ⟨q, List.mem_append_left _ hq, rfl⟩
    · simp only [upsertTerminal, if_neg hterm] at h
      rcases ih kv h with h3 | ⟨q, hq, rfl⟩
      · exact Or.inl h3
      · exact Or.inr ⟨q, List.mem_append_left _ hq, rfl⟩

/-- C3: persisting a PR set writes only terminal-state (MERGED or CLOSED)
pull requests beyond the cache's pre-existing entries, keeps every
pre-existing entry's key (the write overlays, it does not replace), stores
every terminal PR of the set, and reloading the written document returns
its PR map; on the spec's example, persisting {1 OPEN, 2 MERGED, 3 CLOSED}
into an empty cache stores exactly entries 2 and 3, which reload
verbatim. -/
theorem save_only_terminal :
    (∀ (r : CacheRead) (prs : List ghPR) (now : Nat) (cache : PRCache),
      loadPRCache r = .ok cache →
      ∃ m, savePRCache r prs now = some ⟨some m, now⟩
        ∧ (∀ k v, lookupA m k = some v →
            lookupA cache.prs k = some v
            ∨ ∃ pr, pr ∈ prs ∧ (pr.state = PRStateMerged ∨ pr.state = PRStateClosed)
                ∧ pr.number = k ∧ v = cachedOfPR pr)
        ∧ (∀ k, (lookupA cache.prs k).isSome = true → (lookupA m k).isSome = true)
        ∧ (∀ pr, pr ∈ prs → (pr.state = PRStateMerged ∨ pr.state = PRStateClosed) →
            (lookupA m pr.number).isSome = true)
        ∧ loadPRCache (.found (some ⟨some m, now⟩)) = .ok ⟨m, now⟩)
    ∧ savePRCache .missing
        [⟨1, "t1", "OPEN", "u1", "b1"⟩, ⟨2, "t2", "MERGED", "u2", "b2"⟩,
         ⟨3, "t3", "CLOSED", "u3", "b3"⟩] 5
        = some ⟨some [(2, ⟨2, "t2", "MERGED", "u2", "b2"⟩),
                      (3, ⟨3, "t3", "CLOSED", "u3", "b3"⟩)], 5⟩
    ∧ loadPRCache (.found (some ⟨some [(2, ⟨2, "t2", "MERGED", "u2", "b2"⟩),
                      (3, ⟨3, "t3", "CLOSED", "u3", "b3"⟩)], 5⟩))
        = .ok ⟨[(2, ⟨2, "t2", "MERGED", "u2", "b2"⟩),
                (3, ⟨3, "t3", "CLOSED", "u3", "b3"⟩)], 5⟩ := by
  refine ⟨?_, rfl, rfl⟩
  intro r prs now cache hload
  refine ⟨prs.foldl upsertTerminal cache.prs, ?_, ?_, ?_, ?_, rfl⟩
  · simp [savePRCache, hload]
  · intro k v hkv
    rw [lookupA_foldl_upsert] at hkv
    cases hlt : lastTerminalFor k prs with
    | some pr =>
      rw [hlt] at hkv
      have hm := lastTerminal_mem k prs pr hlt
      exact Or.inr ⟨pr, hm.1, hm.2.1, hm.2.2, by simpa using hkv.symm⟩
    | none =>
      rw [hlt] at hkv
      exact Or.inl hkv
  · intro k hk
    rw [lookupA_foldl_upsert]
    cases hlt : lastTerminalFor k prs with
    | some pr => simp
    | none => simpa using hk
  · intro pr hmem hterm
    rw [lookupA_foldl_upsert]
    have := lastTerminal_isSome prs pr hmem hterm
    cases hlt : lastTerminalFor pr.number prs with
    | some q => simp
    | none => rw [hlt] at this; simp at this

/-- C3 witness: the general statement applied to an empty (missing-file)
cache and the spec's three-PR example. -/
theorem save_only_terminal_witness :
    ∃ m, savePRCache .missing [⟨2, "t2", "MERGED", "u2", "b2"⟩] 5 = some ⟨some m, 5⟩
      ∧ (∀ k v, lookupA m k = some v →
          lookupA emptyPRCache.prs k = some v
          ∨ ∃ pr, pr ∈ [(⟨2, "t2", "MERGED", "u2", "b2"⟩ : ghPR)]
              ∧ (pr.state = PRStateMerged ∨ pr.state = PRStateClosed)
              ∧ pr.number = k ∧ v = cachedOfPR pr)
      ∧ (∀ k, (lookupA emptyPRCache.prs k).isSome = true → (lookupA m k).isSome = true)
      ∧ (∀ pr, pr ∈ [(⟨2, "t2", "MERGED", "u2", "b2"⟩ : ghPR)] →
          (pr.state = PRStateMerged ∨ pr.state = PRStateClosed) →
          (lookupA m pr.number).isSome = true)
      ∧ loadPRCache (.found (some ⟨some m, 5⟩)) = .ok ⟨m, 5⟩ :=
  save_only_terminal.1 .missing [⟨2, "t2", "MERGED", "u2", "b2"⟩] 5 emptyPRCache rfl

theorem statePriority_le_two (s : String) : statePriority s ≤ 2 := by
  unfold statePriority
  split_ifs <;> omega

theorem buildBranchPRs_append (prs : List ghPR) (pr : ghPR) :
    buildBranchPRs (prs ++ [pr]) = updateBranchPRs (buildBranchPRs prs) pr := by
  simp [buildBranchPRs, List.foldl_append]

/-- Characterization of the branch map built by `linkPRsToBranches`: for
each branch name with at least one candidate PR, the stored PR is one of
the candidates and has maximal OPEN > MERGED > CLOSED priority among
them. -/
theorem buildBranchPRs_spec (prs : List ghPR)
    (hval : ∀ pr ∈ prs,
      pr.state = PRStateOpen ∨ pr.state = PRStateMerged ∨ pr.state = PRStateClosed)
    (name : String) :
    (prs.filter (fun pr => pr.headRef == name) = []
      ∧ lookupA (buildBranchPRs prs) name = none)
    ∨ (∃ cand, cand ∈ prs.filter (fun pr => pr.headRef == name)
        ∧ lookupA (buildBranchPRs prs) name = some (prOfGh cand)
        ∧ ∀ o ∈ prs.filter (fun pr => pr.headRef == name),
            statePriority o.state ≤ statePriority cand.state) := by
  induction prs using List.reverseRecOn with
  | nil => exact Or.inl ⟨rfl, rfl⟩
  | append_singleton rest pr ih =>
    have hvalrest : ∀ q ∈ rest,
        q.state = PRStateOpen ∨ q.state = PRStateMerged ∨ q.state = PRStateClosed :=
      fun q hq => hval q (List.mem_append_left _ hq)
    have hvalpr : pr.state = PRStateOpen ∨ pr.state = PRStateMerged ∨ pr.state = PRStateClosed :=
      hval pr (List.mem_append_right _ (List.mem_singleton_self _))
    rw [buildBranchPRs_append, List.filter_append]
    by_cases hname : pr.headRef = name
    · simp only [List.filter_cons, List.filter_nil, hname, beq_self_eq_true, if_true]
      rcases ih hvalrest with ⟨hfil, hlook⟩ | ⟨cand, hmem, hlook, hmax⟩
      · rw [hfil]
        simp only [List.nil_append]
        refine Or.inr ⟨pr, List.mem_singleton_self _, ?_, ?_⟩
        · simp [updateBranchPRs, hname, hlook, lookupA_insertA]
        · intro o ho
          obtain rfl : o = pr := by simpa using ho
          exact le_refl _
      · simp only [updateBranchPRs, hname, hlook]
        by_cases hc : pr.state = PRStateOpen
            ∨ (pr.state = PRStateMerged ∧ (prOfGh cand).state = PRStateClosed)
        · rw [if_pos hc]
          refine Or.inr ⟨pr, List.mem_append_right _ (List.mem_singleton_self _),
            by simp [lookupA_insertA], ?_⟩
          intro o ho
          rcases List.mem_append.mp ho with ho2 | ho2
          · rcases hc with hopen | ⟨hmer, hcl⟩
            · have h2 : statePriority PRStateOpen = 2 := by decide
              rw [hopen, h2]
              exact statePriority_le_two o.state
            · have hcl2 : cand.state = PRStateClosed := hcl
              have hcand : statePriority cand.state = 0 := by
                rw [hcl2]
                decide
              have h0 := hmax o ho2
              rw [hcand] at h0
              have h1 : statePriority PRStateMerged = 1 := by decide
              rw [hmer, h1]
              omega
          · obtain rfl : o = pr := by simpa using ho2
            exact le_refl _
        · rw [if_neg hc]
          refine Or.inr ⟨cand, List.mem_append_left _ hmem, hlook, ?_⟩
          intro o ho
          rcases List.mem_append.mp ho with ho2 | ho2
          · exact hmax o ho2
          · obtain rfl : o = pr := by simpa using ho2
            push_neg at hc
            rcases hvalpr with h1 | h1 | h1
            · exact absurd h1 hc.1
            · have hcand2 : cand.state ≠ PRStateClosed := hc.2 h1
              have hcandmem : cand ∈ rest := (List.mem_filter.mp hmem).1
              rcases hvalrest cand hcandmem with h2 | h2 | h2
              · rw [h1, h2]
                decide
              · rw [h1, h2]
              · exact absurd h2 hcand2
            · have h2 : statePriority PRStateClosed = 0 := by decide
              rw [h1, h2]
              exact Nat.zero_le _
    · have hfil : List.filter (fun pr2 => pr2.headRef == name) [pr] = [] := by
        simp [hname]
      rw [hfil, List.append_nil]
      have hlookeq : lookupA (updateBranchPRs (buildBranchPRs rest) pr) name
          = lookupA (buildBranchPRs rest) name := by
        unfold updateBranchPRs
        cases hl : lookupA (buildBranchPRs rest) pr.headRef with
        | none => simp [lookupA_insertA, hname]
        | some existing =>
          dsimp only
          by_cases hc : pr.state = PRStateOpen
              ∨ (pr.state = PRStateMerged ∧ existing.state = PRStateClosed)
          · rw [if_pos hc, lookupA_insertA, if_neg hname]
          · rw [if_neg hc]
      rw [hlookeq]
      exact ih hvalrest

/-- C4: when multiple pull requests originate from the same branch name,
linking attaches exactly one PR to that branch, one of the candidates for
that name, chosen with maximal priority OPEN > MERGED > CLOSED; on the
spec's example, candidates 10 (CLOSED) and 11 (OPEN) for branch `feature`
select PR 11. -/
theorem link_selects_priority :
    (∀ (f : Fork) (prs : List ghPR),
      (∀ pr ∈ prs,
        pr.state = PRStateOpen ∨ pr.state = PRStateMerged ∨ pr.state = PRStateClosed) →
      ∀ b ∈ f.branches, prs.filter (fun pr => pr.headRef == b.name) ≠ [] →
        ∃ cand, cand ∈ prs.filter (fun pr => pr.headRef == b.name)
          ∧ (∃ b2, b2 ∈ (linkPRsToBranches f prs).branches ∧ b2.name = b.name
              ∧ b2.pr = some (prOfGh cand))
          ∧ ∀ o ∈ prs.filter (fun pr => pr.headRef == b.name),
              statePriority o.state ≤ statePriority cand.state)
    ∧ lookupA (buildBranchPRs
        [⟨10, "t10", "CLOSED", "u10", "feature"⟩, ⟨11, "t11", "OPEN", "u11", "feature"⟩])
        "feature" = some (prOfGh ⟨11, "t11", "OPEN", "u11", "feature"⟩) := by
  refine ⟨?_, by decide⟩
  intro f prs hval b hb hne
  rcases buildBranchPRs_spec prs hval b.name with ⟨hfil, _⟩ | ⟨cand, hmem, hlook, hmax⟩
  · exact absurd hfil hne
  · refine ⟨cand, hmem, ?_, hmax⟩
    refine ⟨match lookupA (buildBranchPRs prs) b.name with
      | some pr => { b with pr := some pr }
      | none => b, ?_, ?_⟩
    · simp only [linkPRsToBranches]
      exact List.mem_map_of_mem _ hb
    · rw [hlook]
      exact ⟨rfl, rfl⟩

/-- C4 witness: the general statement applied to a fork with one branch
`feature` and the spec's two candidate PRs. -/
theorem link_selects_priority_witness :
    ∃ cand, cand ∈ ([⟨10, "t10", "CLOSED", "u10", "feature"⟩,
        ⟨11, "t11", "OPEN", "u11", "feature"⟩] : List ghPR).filter
          (fun pr => pr.headRef == (⟨"feature", "", "", false, none⟩ : Branch).name)
      ∧ (∃ b2, b2 ∈ (linkPRsToBranches
            { defaultFork with branches := [⟨"feature", "", "", false, none⟩] }
            [⟨10, "t10", "CLOSED", "u10", "feature"⟩,
             ⟨11, "t11", "OPEN", "u11", "feature"⟩]).branches
          ∧ b2.name = (⟨"feature", "", "", false, none⟩ : Branch).name
          ∧ b2.pr = some (prOfGh cand))
      ∧ ∀ o ∈ ([⟨10, "t10", "CLOSED", "u10", "feature"⟩,
          ⟨11, "t11", "OPEN", "u11", "feature"⟩] : List ghPR).filter
            (fun pr => pr.headRef == (⟨"feature", "", "", false, none⟩ : Branch).name),
          statePriority o.state ≤ statePriority cand.state :=
  link_selects_priority.1
    { defaultFork with branches := [⟨"feature", "", "", false, none⟩] }
    [⟨10, "t10", "CLOSED", "u10", "feature"⟩, ⟨11, "t11", "OPEN", "u11", "feature"⟩]
    (by decide) ⟨"feature", "", "", false, none⟩ (by decide) (by decide)

/-- An analyzed fork's category is one of the three constants. -/
def validCategory (f : Fork) : Prop :=
  f.category = CategoryMaintained ∨ f.category = CategoryContribution
    ∨ f.category = CategoryUntouched

instance (f : Fork) : Decidable (validCategory f) := by
  unfold validCategory
  infer_instance

theorem categoryOrder_inj (a b : Fork) (ha : validCategory a) (hb : validCategory b)
    (hne : a.category ≠ b.category) :
    categoryOrder a.category ≠ categoryOrder b.category := by
  rcases ha with h1 | h1 | h1 <;> rcases hb with h2 | h2 | h2 <;>
    first
      | exact absurd (h1.trans h2.symm) hne
      | (rw [h1, h2]; decide)

theorem goStringLt_iff (a b : String) : goStringLt a b = true ↔ a < b := by
  rw [String.lt_iff_toList_lt]
  simp [goStringLt, String.toList]

theorem forkLe_iff (a b : Fork) (ha : validCategory a) (hb : validCategory b) :
    forkLe a b = true
      ↔ (categoryOrder a.category < categoryOrder b.category
          ∨ (a.category = b.category ∧ a.name ≤ b.name)) := by
  unfold forkLe forkLess
  by_cases hcat : a.category = b.category
  · rw [if_neg (fun h => h hcat.symm)]
    have hrank : categoryOrder a.category = categoryOrder b.category := by rw [hcat]
    rw [Bool.not_eq_true', ← Bool.not_eq_true, goStringLt_iff, not_lt]
    constructor
    · intro h
      exact Or.inr ⟨hcat, h⟩
    · intro h
      rcases h with h | ⟨_, h⟩
      · rw [hrank] at h
        exact absurd h (lt_irrefl _)
      · exact h
  · rw [if_pos (fun h => hcat h.symm)]
    have hne2 : categoryOrder a.category ≠ categoryOrder b.category :=
      categoryOrder_inj a b ha hb hcat
    rw [Bool.not_eq_true', decide_eq_false_iff_not, not_lt]
    constructor
    · intro h
      left
      omega
    · intro h
      rcases h with h | ⟨hc, _⟩
      · omega
      · exact absurd hc hcat

theorem forkLe_trans (a b c : Fork) (ha : validCategory a) (hb : validCategory b)
    (hc : validCategory c) (h1 : forkLe a b = true) (h2 : forkLe b c = true) :
    forkLe a c = true := by
  rw [forkLe_iff a b ha hb] at h1
  rw [forkLe_iff b c hb hc] at h2
  rw [forkLe_iff a c ha hc]
  rcases h1 with h1 | ⟨h1, h1n⟩ <;> rcases h2 with h2 | ⟨h2, h2n⟩
  · left
    omega
  · have := congrArg categoryOrder h2
    left
    omega
  · have := congrArg categoryOrder h1
    left
    omega
  · exact Or.inr ⟨h1.trans h2, le_trans h1n h2n⟩

theorem forkLe_total (a b : Fork) : forkLe a b = true ∨ forkLe b a = true := by
  unfold forkLe forkLess
  by_cases hcat : a.category = b.category
  · rw [if_neg (fun h => h hcat.symm), if_neg (fun h => h hcat)]
    by_cases h : goStringLt b.name a.name = true
    · right
      rw [goStringLt_iff] at h
      have h2 : ¬ (a.name < b.name) := lt_asymm h
      simp only [Bool.not_eq_true']
      rw [← Bool.not_eq_true, goStringLt_iff]
      exact h2
    · left
      rw [Bool.not_eq_true] at h
      rw [h]
      rfl
  · rw [if_pos (fun h => hcat h.symm), if_pos hcat]
    by_cases h : categoryOrder b.category < categoryOrder a.category
    · right
      simp only [Bool.not_eq_true', decide_eq_false_iff_not]
      omega
    · left
      simp only [Bool.not_eq_true', decide_eq_false_iff_not]
      exact h

theorem mem_insertFork (x : Fork) (l : List Fork) (a : Fork) (h : a ∈ insertFork x l) :
    a = x ∨ a ∈ l := by
  induction l with
  | nil => simpa [insertFork] using h
  | cons y rest ih =>
    unfold insertFork at h
    by_cases hle : forkLe x y = true
    · rw [if_pos hle] at h
      rcases List.mem_cons.mp h with rfl | h2
      · exact Or.inl rfl
      · exact Or.inr h2
    · rw [if_neg hle] at h
      rcases List.mem_cons.mp h with rfl | h2
      · exact Or.inr (List.mem_cons_self _ _)
      · rcases ih h2 with h3 | h3
        · exact Or.inl h3
        · exact Or.inr (List.mem_cons_of_mem _ h3)

theorem insertFork_perm (x : Fork) (l : List Fork) : (insertFork x l).Perm (x :: l) := by
  induction l with
  | nil => exact List.Perm.refl _
  | cons y rest ih =>
    unfold insertFork
    by_cases hle : forkLe x y = true
    · rw [if_pos hle]
    · rw [if_neg hle]
      exact (ih.cons y).trans (List.Perm.swap x y rest)

theorem sortForks_perm (l : List Fork) : (sortForks l).Perm l := by
  induction l with
  | nil => exact List.Perm.refl _
  | cons x rest ih =>
    exact (insertFork_perm x (sortForks rest)).trans (ih.cons x)

theorem pairwise_insertFork (x : Fork) (l : List Fork) (hvx : validCategory x)
    (hvl : ∀ f ∈ l, validCategory f)
    (hp : l.Pairwise (fun a b => forkLe a b = true)) :
    (insertFork x l).Pairwise (fun a b => forkLe a b = true) := by
  induction l with
  | nil => simp [insertFork]
  | cons y rest ih =>
    have hvy : validCategory y := hvl y (List.mem_cons_self _ _)
    have hvrest : ∀ f ∈ rest, validCategory f := fun f hf => hvl f (List.mem_cons_of_mem _ hf)
    rcases List.pairwise_cons.mp hp with ⟨hy, hprest⟩
    unfold insertFork
    by_cases hle : forkLe x y = true
    · rw [if_pos hle]
      refine List.pairwise_cons.mpr ⟨?_, hp⟩
      intro a ha
      rcases List.mem_cons.mp ha with rfl | ha2
      · exact hle
      · exact forkLe_trans x y a hvx hvy (hvrest a ha2) hle (hy a ha2)
    · rw [if_neg hle]
      refine List.pairwise_cons.mpr ⟨?_, ih hvrest hprest⟩
      intro a ha
      rcases mem_insertFork x rest a ha with rfl | ha2
      · rcases forkLe_total a y with h | h
        · exact absurd h hle
        · exact h
      · exact hy a ha2

theorem sortForks_pairwise (l : List Fork) (hvl : ∀ f ∈ l, validCategory f) :
    (sortForks l).Pairwise (fun a b => forkLe a b = true) := by
  induction l with
  | nil => simp [sortForks]
  | cons x rest ih =>
    have hvrest : ∀ f ∈ rest, validCategory f := fun f hf => hvl f (List.mem_cons_of_mem _ hf)
    have hmem : ∀ f ∈ sortForks rest, validCategory f := fun f hf =>
      hvrest f ((sortForks_perm rest).mem_iff.mp hf)
    exact pairwise_insertFork x (sortForks rest) (hvl x (List.mem_cons_self _ _)) hmem
      (ih hvrest)

/-- C5: the final output is a permutation of the filtered analysis results
ordered by category rank (`maintained` before `contribution` before
`untouched`) and lexicographically ascending by fork name within a
category; on the spec's example {bbb maintained, aaa maintained,
zzz contribution} the output order is aaa, bbb, zzz. -/
theorem final_sort_order :
    (∀ l : List Fork, (∀ f ∈ l, validCategory f) →
      (sortForks l).Perm l
      ∧ (sortForks l).Pairwise (fun a b =>
          categoryOrder a.category < categoryOrder b.category
          ∨ (a.category = b.category ∧ a.name ≤ b.name)))
    ∧ sortForks
        [⟨"bbb", "o/bbb", "", "", "", "", "maintained", 0, 0, "", "", "", "", [], false⟩,
         ⟨"aaa", "o/aaa", "", "", "", "", "maintained", 0, 0, "", "", "", "", [], false⟩,
         ⟨"zzz", "o/zzz", "", "", "", "", "contribution", 0, 0, "", "", "", "", [], false⟩]
      = [⟨"aaa", "o/aaa", "", "", "", "", "maintained", 0, 0, "", "", "", "", [], false⟩,
         ⟨"bbb", "o/bbb", "", "", "", "", "maintained", 0, 0, "", "", "", "", [], false⟩,
         ⟨"zzz", "o/zzz", "", "", "", "", "contribution", 0, 0, "", "", "", "", [], false⟩] := by
  refine ⟨?_, by decide⟩
  intro l hvl
  have hperm := sortForks_perm l
  refine ⟨hperm, ?_⟩
  have hp := sortForks_pairwise l hvl
  exact hp.imp_of_mem (fun ha hb hr =>
    (forkLe_iff _ _ (hvl _ (hperm.mem_iff.mp ha)) (hvl _ (hperm.mem_iff.mp hb))).mp hr)

/-- C5 witness: the general statement applied to the spec's three-fork
example. -/
theorem final_sort_order_witness :
    (sortForks
        [⟨"bbb", "o/bbb", "", "", "", "", "maintained", 0, 0, "", "", "", "", [], false⟩,
         ⟨"aaa", "o/aaa", "", "", "", "", "maintained", 0, 0, "", "", "", "", [], false⟩,
         ⟨"zzz", "o/zzz", "", "", "", "", "contribution", 0, 0, "", "", "", "", [], false⟩]).Perm
        [⟨"bbb", "o/bbb", "", "", "", "", "maintained", 0, 0, "", "", "", "", [], false⟩,
         ⟨"aaa", "o/aaa", "", "", "", "", "maintained", 0, 0, "", "", "", "", [], false⟩,
         ⟨"zzz", "o/zzz", "", "", "", "", "contribution", 0, 0, "", "", "", "", [], false⟩]
    ∧ (sortForks
        [⟨"bbb", "o/bbb", "", "", "", "", "maintained", 0, 0, "", "", "", "", [], false⟩,
         ⟨"aaa", "o/aaa", "", "", "", "", "maintained", 0, 0, "", "", "", "", [], false⟩,
         ⟨"zzz", "o/zzz", "", "", "", "", "contribution", 0, 0, "", "", "", "", [], false⟩]).Pairwise
        (fun a b =>
          categoryOrder a.category < categoryOrder b.category
          ∨ (a.category = b.category ∧ a.name ≤ b.name)) :=
  final_sort_order.1
    [⟨"bbb", "o/bbb", "", "", "", "", "maintained", 0, 0, "", "", "", "", [], false⟩,
     ⟨"aaa", "o/aaa", "", "", "", "", "maintained", 0, 0, "", "", "", "", [], false⟩,
     ⟨"zzz", "o/zzz", "", "", "", "", "contribution", 0, 0, "", "", "", "", [], false⟩]
    (by decide)

/-- C6 amended: a missing cache file and a malformed cache file each
yield an empty cache with no error, and `getPRsForFork` sees the empty
cache in both cases; but a read failure other than file absence (for
example a permission error, or a failure to resolve the cache directory)
is returned as an error by `loadPRCache`, and `getPRsForFork`, which
discards that error, is left with a nil cache rather than an empty one. -/
theorem cache_read_failure_handling :
    loadPRCache .missing = .ok emptyPRCache
    ∧ loadPRCache (.found none) = .ok emptyPRCache
    ∧ loadPRCache .failed = .error ()
    ∧ forkCacheView false .missing = some emptyPRCache
    ∧ forkCacheView false (.found none) = some emptyPRCache
    ∧ forkCacheView false .failed = none
    ∧ forkCacheView false .failed ≠ some emptyPRCache := by
  refine ⟨rfl, rfl, rfl, rfl, rfl, rfl, ?_⟩
  intro h
  simp [forkCacheView, loadPRCache] at h

/-- C6 counterexample: not every cache-read failure is treated like a
missing cache entry: a read failure other than file absence is returned
as an error by `loadPRCache` (unlike a missing file), and the cache view
`getPRsForFork` is left with differs from the missing-file view. -/
theorem cache_read_failure_surfaced :
    loadPRCache .failed = .error ()
    ∧ loadPRCache .failed ≠ loadPRCache .missing
    ∧ forkCacheView false .failed ≠ forkCacheView false .missing := by
  refine ⟨rfl, ?_, ?_⟩
  · intro h
    simp [loadPRCache] at h
  · intro h
    simp [forkCacheView, loadPRCache] at h

/-- C7 amended: for every fork with a parent, the ahead/behind comparison
request is made against the parent repository but names the fork's
default branch on both sides: base `parentOwner:forkDefaultBranch` and
head `forkOwner:forkDefaultBranch`. The upstream's own default branch
name is never used. -/
theorem comparison_uses_fork_branch (repo : ghRepo) (p : ghParent)
    (h : repo.parent = some p) :
    ∃ req, analyzeComparisonRequest repo = some req
      ∧ req.baseRepo = p.fullName
      ∧ req.baseOwner = goSplitOwner p.fullName
      ∧ req.baseBranch = repo.defaultBranch
      ∧ req.headOwner = goSplitOwner repo.fullName
      ∧ req.headBranch = repo.defaultBranch
      ∧ compareEndpoint req
          = "repos/" ++ p.fullName ++ "/compare/" ++ goSplitOwner p.fullName ++ ":"
            ++ repo.defaultBranch ++ "..." ++ goSplitOwner repo.fullName ++ ":"
            ++ repo.defaultBranch := by
  refine ⟨getComparisonRequest repo.fullName p.fullName repo.defaultBranch, ?_,
    rfl, rfl, rfl, rfl, rfl, rfl⟩
  simp [analyzeComparisonRequest, h]

/-- C7 witness: the amended statement applied to a concrete fork whose
default branch name differs from its upstream's. -/
theorem comparison_uses_fork_branch_witness :
    ∃ req, analyzeComparisonRequest
        ⟨"proj", "me/proj", "u", true, "master", some ⟨"proj", "acme/proj", "main"⟩⟩
        = some req
      ∧ req.baseRepo = (⟨"proj", "acme/proj", "main"⟩ : ghParent).fullName
      ∧ req.baseOwner = goSplitOwner (⟨"proj", "acme/proj", "main"⟩ : ghParent).fullName
      ∧ req.baseBranch = (⟨"proj", "me/proj", "u", true, "master",
          some ⟨"proj", "acme/proj", "main"⟩⟩ : ghRepo).defaultBranch
      ∧ req.headOwner = goSplitOwner (⟨"proj", "me/proj", "u", true, "master",
          some ⟨"proj", "acme/proj", "main"⟩⟩ : ghRepo).fullName
      ∧ req.headBranch = (⟨"proj", "me/proj", "u", true, "master",
          some ⟨"proj", "acme/proj", "main"⟩⟩ : ghRepo).defaultBranch
      ∧ compareEndpoint req
          = "repos/" ++ "acme/proj" ++ "/compare/" ++ goSplitOwner "acme/proj" ++ ":"
            ++ "master" ++ "..." ++ goSplitOwner "me/proj" ++ ":" ++ "master" :=
  comparison_uses_fork_branch
    ⟨"proj", "me/proj", "u", true, "master", some ⟨"proj", "acme/proj", "main"⟩⟩
    ⟨"proj", "acme/proj", "main"⟩ rfl

/-- C7 counterexample: for a fork whose default branch (`master`) differs
from its upstream's (`main`), the comparison request's base branch is the
fork's default branch name `master`, not the upstream's default branch
`main`; the full endpoint is
`repos/acme/proj/compare/acme:master...me:master`. -/
theorem comparison_not_upstream_default :
    (analyzeComparisonRequest
        ⟨"proj", "me/proj", "u", true, "master", some ⟨"proj", "acme/proj", "main"⟩⟩).map
        (fun req => req.baseBranch) = some "master"
    ∧ (⟨"proj", "acme/proj", "main"⟩ : ghParent).defaultBranch = "main"
    ∧ (analyzeComparisonRequest
        ⟨"proj", "me/proj", "u", true, "master", some ⟨"proj", "acme/proj", "main"⟩⟩).map
        compareEndpoint = some "repos/acme/proj/compare/acme:master...me:master"
    ∧ ("master" : String) ≠ "main" := by
  exact ⟨by decide, rfl, by decide, by decide⟩

theorem analyzeFork_names (g : GhEnv) (rt : String → String) (repo : ghRepo) :
    (analyzeFork g rt repo).1.fullName = repo.fullName
    ∧ (analyzeFork g rt repo).1.name = repo.name := by
  unfold analyzeFork categorizeFork enrichFork
  constructor <;>
    · repeat' split
      all_goals simp [linkPRsToBranches]

/-- C8 amended: analysis produces exactly one result slot per input index,
slot i holding the analysis of the fork enumerated at index i (hence
matching its name and full name); after the workers finish, exactly the
indices with a recorded error are reported as warnings (by repository
full name) and excluded, and of the remaining indices exactly those whose
analyzed fork has a non-empty full name are kept, in input order; a fork
whose full name is empty is silently dropped without a warning. -/
theorem index_integrity_and_collection :
    (∀ (rt : String → String) (jobs : List (ghRepo × GhEnv)),
      (analyzeJobs rt jobs).length = jobs.length
      ∧ (∀ i : Nat, (analyzeJobs rt jobs)[i]?
          = (jobs[i]?).map (fun j =>
              (j.1, (analyzeFork j.2 rt j.1).1, (analyzeFork j.2 rt j.1).2)))
      ∧ (analyzeJobs rt jobs).map (fun t => t.2.1.fullName)
          = jobs.map (fun j => j.1.fullName)
      ∧ (analyzeJobs rt jobs).map (fun t => t.2.1.name)
          = jobs.map (fun j => j.1.name))
    ∧ (∀ triples : List (ghRepo × Fork × Option Unit),
        (collectResults triples).2
          = (triples.filter (fun t => t.2.2.isSome)).map (fun t => t.1.fullName)
        ∧ (collectResults triples).1
          = (triples.filter (fun t => t.2.2.isNone && !(t.2.1.fullName == ""))).map
              (fun t => t.2.1)) := by
  constructor
  · intro rt jobs
    refine ⟨by simp [analyzeJobs], ?_, ?_, ?_⟩
    · intro i
      simp [analyzeJobs]
    · simp only [analyzeJobs, List.map_map]
      apply List.map_congr_left
      intro j _
      exact (analyzeFork_names j.2 rt j.1).1
    · simp only [analyzeJobs, List.map_map]
      apply List.map_congr_left
      intro j _
      exact (analyzeFork_names j.2 rt j.1).2
  · intro triples
    induction triples with
    | nil => exact ⟨rfl, rfl⟩
    | cons t rest ih =>
      obtain ⟨repo, f, e⟩ := t
      cases e with
      | some err =>
        simp [collectResults, List.filter_cons, ih.1, ih.2]
      | none =>
        by_cases hf : f.fullName = ""
        · simp [collectResults, List.filter_cons, hf, ih.1, ih.2]
        · simp [collectResults, List.filter_cons, hf, ih.1, ih.2]

/-- C8 counterexample: an index whose analysis records no error can still
be excluded from the results: a fork with an empty full name is neither
kept nor reported as a warning, contradicting the claim that every index
without a recorded error is kept. -/
theorem empty_fullname_dropped :
    (analyzeFork ⟨.error (), .error (), .error (), .error (), .error ()⟩ (fun _ => "")
        ⟨"", "", "", true, "", none⟩).2 = none
    ∧ collectResults [(⟨"", "", "", true, "", none⟩,
        (analyzeFork ⟨.error (), .error (), .error (), .error (), .error ()⟩ (fun _ => "")
          ⟨"", "", "", true, "", none⟩).1,
        (analyzeFork ⟨.error (), .error (), .error (), .error (), .error ()⟩ (fun _ => "")
          ⟨"", "", "", true, "", none⟩).2)]
      = ([], []) :=
  ⟨rfl, rfl⟩

/-- C9 amended: running the merge-and-persist step twice with the same
live input over an initially empty (missing-file) cache stores exactly
the same PR entries both times (no duplication or drift); the
updated-at timestamp, however, is refreshed to each run's clock, so the
full on-disk document differs between runs exactly in that field. -/
theorem merge_persist_idempotent (live : List ghPR) (t1 t2 : Nat) :
    ∃ d1 d2, mergeAndPersist .missing live t1 = some d1
      ∧ mergeAndPersist (.found (some d1)) live t2 = some d2
      ∧ d1.updatedAt = t1 ∧ d2.updatedAt = t2
      ∧ ∃ m1 m2, d1.prs = some m1 ∧ d2.prs = some m2
          ∧ (∀ k, lookupA m2 k = lookupA m1 k) := by
  have h1 : mergeAndPersist .missing live t1
      = some ⟨some ((mergeCachedPRs live emptyPRCache).foldl upsertTerminal []), t1⟩ := rfl
  have h2 : mergeAndPersist
      (.found (some ⟨some ((mergeCachedPRs live emptyPRCache).foldl upsertTerminal []), t1⟩))
      live t2
      = some ⟨some ((mergeCachedPRs live
          ⟨(mergeCachedPRs live emptyPRCache).foldl upsertTerminal [], t1⟩).foldl
            upsertTerminal
            ((mergeCachedPRs live emptyPRCache).foldl upsertTerminal [])), t2⟩ := rfl
  refine ⟨_, _, h1, h2, rfl, rfl, _, _, rfl, rfl, ?_⟩
  have hnil2 : (live.foldl upsertTerminal []).filterMap
      (fun kv : Int × CachedPR =>
        if kv.2.number ∈ live.map (fun pr : ghPR => pr.number) then none
        else some (ghPRofCached kv.2)) = [] := by
    rw [List.filterMap_eq_nil_iff]
    intro kv hkv
    rcases mem_foldl_upsert _ _ kv hkv with h | ⟨pr, hpr, rfl⟩
    · simp at h
    · have hmem : pr.number ∈ live.map (fun pr2 : ghPR => pr2.number) :=
        List.mem_map_of_mem _ hpr
      simp [cachedOfPR, hmem]
  intro k
  simp only [mergeCachedPRs, emptyPRCache, List.filterMap_nil, List.append_nil]
  rw [hnil2, List.append_nil]
  rw [lookupA_foldl_upsert, lookupA_foldl_upsert]
  cases hlt : lastTerminalFor k live with
  | some pr => rfl
  | none => rfl

/-- C9 counterexample: the on-disk cache document includes an updated-at
timestamp stamped with each run's clock, so two runs at different times
write literally different on-disk content even with identical live input
and identical stored PR entries. -/
theorem merge_persist_timestamp_drift :
    mergeAndPersist .missing [⟨2, "t2", "MERGED", "u2", "b2"⟩] 0
      = some ⟨some [(2, ⟨2, "t2", "MERGED", "u2", "b2"⟩)], 0⟩
    ∧ mergeAndPersist (.found (some ⟨some [(2, ⟨2, "t2", "MERGED", "u2", "b2"⟩)], 0⟩))
        [⟨2, "t2", "MERGED", "u2", "b2"⟩] 1
      = some ⟨some [(2, ⟨2, "t2", "MERGED", "u2", "b2"⟩)], 1⟩
    ∧ (⟨some [(2, ⟨2, "t2", "MERGED", "u2", "b2"⟩)], 0⟩ : PRCacheFile)
        ≠ ⟨some [(2, ⟨2, "t2", "MERGED", "u2", "b2"⟩)], 1⟩ :=
  ⟨rfl, rfl, by decide⟩

end GhWtfork